import Mathlib

/-!
Verification of the kspir PIR core against its specification.

The C++ sources are shallowly embedded: machine integers become Nat/Int with
explicit wrapping (Int.bmod for narrowing casts, Int.fdiv for arithmetic
shifts), arrays become functions from indices, and the two structurally
identical montgomery_reduce/ntt/invntt_tomont overloads of ntt.cpp become one
generic definition over the modulus, the Montgomery constant and the twiddle
table.  Components whose implementation files are not part of the given
sources (ntt.h twiddle tables, utils.cpp decompose/recontruct) are modelled
from the specification; each such definition says so in its doc comment.
-/

namespace kspir

/-- Ring dimension, params.h line 20 with CURRENT_PARAM_SET = SET_4096. -/
def N : ℕ := 4096

/-- Small (dilithium) modulus, params.h line 28. -/
def mod : ℕ := 8380417

/-- Large legacy modulus, params.h line 29. -/
def bigMod : ℕ := 1125899906826241

/-- Scaling constant floor(q/p), params.h line 37. -/
def Delta : ℕ := 17179869183

/-- Gadget digit bound, params.h line 38. -/
def Bg : ℕ := 0x01 <<< 17

/-- Plaintext bit size, params.h line 55. -/
def Pbits : ℕ := 16

/-- Gadget length, params.h line 56. -/
def ell : ℕ := 3

/-- Gadget base shift, params.h line 57. -/
def Base : ℕ := 0

/-- BSGS plaintext modulus for SET_4096, params.h lines 60-62. -/
def bsgsp : ℕ := 65537

/-- First CRT prime, crt.h line 16. -/
def crtq1 : ℕ := 268369921

/-- Second CRT prime, crt.h line 17. -/
def crtq2 : ℕ := 249561089

/-- Product of the CRT primes, crt.h line 18. -/
def crtMod : ℕ := crtq1 * crtq2

/-- Baby-step modulus, crt.h line 34. -/
def bsMod : ℕ := 16760833

/-- Inverse of mod modulo 2^32, ntt.cpp line 6 (QINV). -/
def QINV : ℕ := 58728449

/-- Inverse of bigMod modulo 2^64, ntt.cpp line 9 (bigQINV). -/
def bigQINV : ℕ := 70936092446048257

/-- NTT length of ntt.cpp.  Modelled from the spec: the header ntt.h defining
the constant dim is not among the given sources; the invntt_tomont scaling
comments (mont^2/2048) and the tests fix dim = 2048. -/
def dim : ℕ := 2048

/-- Ternary sampler, samples.cpp lines 34-39.  The call rand() is modelled by
the nonnegative input r; temp = rand() % 3 - 1 lies in -1..1 and negative
values are returned as modulus - 1. -/
def sample_guass (r modulus : ℕ) : ℕ :=
  let temp : ℤ := (r % 3 : ℕ) - 1
  if temp < 0 then modulus - 1 else temp.toNat

/-- Array variant of the ternary sampler, samples.cpp lines 41-47; the stream
of rand() calls is modelled by the function rs. -/
def sample_guass_arr (rs : ℕ → ℕ) (modulus : ℕ) : ℕ → ℕ :=
  fun i => sample_guass (rs i) modulus

/-- One iteration of subtraction, ntt.cpp lines 164-170.  The uint64_t
difference a[i] - b[i] wraps modulo 2^64 and is then read as a signed int64_t,
which is Int.bmod by 2^64; a negative value has the modulus added back. -/
def subtraction_coeff (a b modulus : ℕ) : ℤ :=
  let sub : ℤ := ((a : ℤ) - (b : ℤ)).bmod (2 ^ 64)
  if sub < 0 then sub + modulus else sub

/-- Coefficient-wise subtraction, ntt.cpp lines 164-170, arrays as index
functions. -/
def subtraction (a b : ℕ → ℕ) (modulus : ℕ) : ℕ → ℤ :=
  fun i => subtraction_coeff (a i) (b i) modulus

/-- The 64-bit montgomery_reduce, ntt.cpp lines 21-27.  The two narrowing
assignments to int64_t are Int.bmod by 2^64, and the arithmetic right shift
of the __int128 by 64 is flooring division.  (The 128-bit subtraction itself
cannot wrap: both operands stay below 2^114 in magnitude for the inputs the
callers produce, which claim C10 makes explicit.) -/
def montgomery_reduce (a : ℤ) : ℤ :=
  ((a - ((a.bmod (2 ^ 64)) * (bigQINV : ℤ)).bmod (2 ^ 64) * (bigMod : ℤ)).fdiv
    (2 ^ 64)).bmod (2 ^ 64)

/-- Generic form of the two montgomery_reduce overloads of ntt.cpp (lines
13-19 and 21-27) used inside the NTT loops: modulus q, inverse QINV of q
modulo R, Montgomery constant R.  The narrowing cast of the first product is
folded into one Int.bmod (wrapping a product wraps either factor), and the
final narrowing cast is omitted: inside the NTT loops the result magnitude
stays far below R/2, so that cast is the identity. -/
def mreduce (q QINV : ℤ) (R : ℕ) (a : ℤ) : ℤ :=
  (a - (a * QINV).bmod R * q).fdiv R

/-- Plaintext vector built by query, query.cpp lines 12-18: a zero vector of
the given length with Delta written at index 0 when row = 0 and
bigMod - Delta written at index length - row otherwise. -/
def query_message (length row : ℕ) : ℕ → ℕ :=
  fun i =>
    if row = 0 then (if i = 0 then Delta else 0)
    else (if i = length - row then bigMod - Delta else 0)

/-- Representation form of a polynomial: coefficient domain or NTT domain. -/
inductive Form where
  | coef : Form
  | ntt : Form
deriving DecidableEq

/-- The form a flag value claims: isNtt = true means NTT domain. -/
def formOfFlag : Bool → Form :=
  fun b => if b then Form.ntt else Form.coef

/-- Representation state of an RLWE ciphertext: the actual forms of its two
polynomials b and a, and the isNtt flag it carries. -/
structure CipherForms where
  bForm : Form
  aForm : Form
  isNtt : Bool
deriving DecidableEq

/-- The isNtt flag describes the actual representation of both components. -/
def flag_consistent (c : CipherForms) : Prop :=
  c.bForm = formOfFlag c.isNtt ∧ c.aForm = formOfFlag c.isNtt

/-- Representation bookkeeping of query, query.cpp lines 21-28: encrypt
returns both b and a in NTT form (contract of the RLWE overload in encrypt.h
lines 26-39), then ComputeInverse is applied to a alone (line 27), then
setIsNtt(false) is called (line 28). -/
def query_forms : CipherForms :=
  let afterEncrypt : CipherForms :=
    { bForm := Form.ntt, aForm := Form.ntt, isNtt := true }
  let afterInverse : CipherForms := { afterEncrypt with aForm := Form.coef }
  { afterInverse with isNtt := false }

/-- Round to nearest with ties away from zero of t / d, for d > 0.  Models
roundl((long double)temp / Delta) in recover.cpp line 21: for the magnitudes
recover produces (|temp| < 2^50, Delta close to 2^34) the long double quotient
carries a 64-bit mantissa, Delta is odd so the exact quotient is never a tie,
and the floating and the exact rounding agree. -/
def roundl_div (t : ℤ) (d : ℕ) : ℤ :=
  if 0 ≤ t then (2 * t + d) / (2 * d)
  else -((2 * (-t) + d) / (2 * d))

/-- Per-coefficient rounding of recover, recover.cpp lines 16-25, applied to
one raw decrypted residue v in [0, modulus): center around 0, divide by Delta
rounding to nearest, and add 2^Pbits to a negative quotient. -/
def recover_coeff (v modulus : ℕ) : ℕ :=
  let halfModulus := modulus >>> 1
  let temp : ℤ := if v > halfModulus then (v : ℤ) - (modulus : ℤ) else (v : ℤ)
  let rounded : ℤ := roundl_div temp Delta
  (if rounded < 0 then rounded + 2 ^ Pbits else rounded).toNat

/-- Vector form of the recover rounding, recover.cpp lines 15-26, acting on
the raw decryption (recover first calls decrypt, whose implementation is not
among the given sources; the claims about recover are stated relative to the
raw decrypted vector this function receives). -/
def recover (message : ℕ → ℕ) (modulus : ℕ) : ℕ → ℕ :=
  fun i => recover_coeff (message i) modulus

/-- Geometric sum 1 + B + ... + B^(l-1), the span of l gadget digits. -/
def geomSum (B : ℕ) : ℕ → ℕ
  | 0 => 0
  | l + 1 => 1 + B * geomSum B l

/-- Inverse of 2 modulo an odd q. -/
def halfInv (q : ℕ) : ℕ := (q + 1) / 2

/-- Inverse of 2^base modulo an odd q. -/
def pow2Inv (q base : ℕ) : ℕ := halfInv q ^ base % q

/-- Centered representative of a residue r in [0, q): values above q/2 drop
by q. -/
def centerRep (q r : ℕ) : ℤ :=
  if (q : ℤ) / 2 < (r : ℤ) then (r : ℤ) - (q : ℤ) else (r : ℤ)

/-- Centered digit of v modulo B: the residue in [0, B), shifted down by B
when it exceeds B/2, so the result lies in (-B/2, B/2] for even B. -/
def sdigit (B : ℕ) (v : ℤ) : ℤ :=
  if (B : ℤ) / 2 < v % (B : ℤ) then v % (B : ℤ) - B else v % (B : ℤ)

/-- Centered base-B digit expansion of an integer: l digits, most significant
last; each step removes the centered digit and divides by B exactly. -/
def cdigits (B : ℕ) : ℕ → ℤ → List ℤ
  | 0, _ => []
  | l + 1, v => sdigit B v :: cdigits B l ((v - sdigit B v) / B)

/-- Modelled from the spec: utils.cpp, which implements decompose, is not
among the given sources.  Section 4.E: decompose(a, base, B_g, l) produces l
digit polynomials with coefficients in (-B_g/2, B_g/2] whose weighted sum
sum d_i B_g^i 2^base is congruent to a modulo q, by digit extraction with
centered residues.  Per coefficient: the residue a is carried to the centered
representative of a / 2^base modulo q (for the required congruence the low
shift must be taken multiplicatively; with the configured Base = 0 this is
the plain centered lift) and then expanded into l centered base-B_g digits. -/
def decompose (q base B l a : ℕ) : List ℤ :=
  cdigits B l (centerRep q (a * pow2Inv q base % q))

/-- Weighted digit sum d_0 + B (d_1 + B (...)) of a digit list. -/
def wsum (B : ℕ) : List ℤ → ℤ
  | [] => 0
  | d :: rest => d + B * wsum B rest

/-- Modelled from the spec: utils.cpp, which implements recontruct, is not
among the given sources.  Section 4.E: reconstruction is the inverse of
decompose, the weighted sum sum d_i B_g^i 2^base reduced back to [0, q). -/
def recontruct (q base B : ℕ) (ds : List ℤ) : ℤ :=
  wsum B ds * 2 ^ base % (q : ℤ)

/-- Coefficient-wise gadget decomposition of a polynomial (arrays as index
functions), see decompose. -/
def decompose_poly (q base B l : ℕ) (a : ℕ → ℕ) : ℕ → List ℤ :=
  fun i => decompose q base B l (a i)

/-- Bit reversal of an L-bit value: brv (L+1) m prepends the parity of m to
the reversal of the remaining bits. -/
def brv : ℕ → ℕ → ℕ
  | 0, _ => 0
  | L + 1, m => m % 2 * 2 ^ L + brv L (m / 2)

/-- One layer of the forward NTT loop, ntt.cpp lines 53-62 (and the identical
64-bit loop, lines 71-80), for butterfly width len over an array of size D:
the in-place double loop pairs a[j] and a[j+len] for j running over each
block [start, start+len) with start a multiple of 2*len.  The pre-incremented
counter k starts at 0 and the stages at widths D/2, D/4, ..., 2*len consumed
1 + 2 + ... + D/(4*len) = D/(2*len) - 1 entries before this stage, so the
block starting at 2*len*b reads zetas[D/(2*len) + b].  Written functionally
(the loop reads a[j] and a[j+len] before overwriting either): an index i
whose len-bit is clear is the j of its pair, one with the bit set is the
j+len. -/
def fwdStage (q QINV : ℤ) (R : ℕ) (zetas : ℕ → ℤ) (D len : ℕ)
    (a : ℕ → ℤ) : ℕ → ℤ :=
  fun i =>
    if i / len % 2 = 0 then
      a i + mreduce q QINV R (zetas (D / (2 * len) + i / (2 * len)) * a (i + len))
    else
      a (i - len) - mreduce q QINV R (zetas (D / (2 * len) + i / (2 * len)) * a i)

/-- The forward NTT of ntt.cpp (lines 48-63 and 65-81): layers of fwdStage
with len = D/2, D/4, ..., 1; nttStages s applies the layers with
len = 2^(s-1) down to ... applied after the wider ones, so nttStages L is
the whole loop nest for D = 2^L. -/
def nttStages (q QINV : ℤ) (R : ℕ) (zetas : ℕ → ℤ) (D : ℕ) :
    ℕ → (ℕ → ℤ) → (ℕ → ℤ)
  | 0, a => a
  | s + 1, a => nttStages q QINV R zetas D s (fwdStage q QINV R zetas D (2 ^ s) a)

/-- The forward NTT on 2^L points: ntt.cpp lines 48-63 / 65-81. -/
def ntt (q QINV : ℤ) (R : ℕ) (zetas : ℕ → ℤ) (L : ℕ) (a : ℕ → ℤ) : ℕ → ℤ :=
  nttStages q QINV R zetas (2 ^ L) L a

/-- One layer of the inverse NTT loop, ntt.cpp lines 89-99 (and lines
112-122): the Gentleman-Sande butterfly over the same pairing as fwdStage.
The pre-decremented counter k starts at D and the stages at widths
1, 2, ..., len/2 consumed D/2 + D/4 + ... + 2*D/(2*len) = D - D/len entries
before this stage, so the counter stands at D/len and the block starting at
2*len*b (blocks are visited in increasing start order) reads
-zetas[D/len - 1 - b]. -/
def invStage (q QINV : ℤ) (R : ℕ) (zetas : ℕ → ℤ) (D len : ℕ)
    (a : ℕ → ℤ) : ℕ → ℤ :=
  fun i =>
    if i / len % 2 = 0 then
      a i + a (i + len)
    else
      mreduce q QINV R (-zetas (D / len - 1 - i / (2 * len)) * (a (i - len) - a i))

/-- Layers of the inverse NTT with len = 1, 2, ..., 2^(s-1), the narrower
ones applied first, matching the loop order of invntt_tomont. -/
def invStages (q QINV : ℤ) (R : ℕ) (zetas : ℕ → ℤ) (D : ℕ) :
    ℕ → (ℕ → ℤ) → (ℕ → ℤ)
  | 0, a => a
  | s + 1, a => invStage q QINV R zetas D (2 ^ s) (invStages q QINV R zetas D s a)

/-- The inverse NTT of ntt.cpp (lines 83-104 and 106-127) on 2^L points: the
butterfly layers followed by the final scaling pass by the constant
f = mont^2 / 2^L (lines 101-103 / 124-126). -/
def invntt_tomont (q QINV : ℤ) (R : ℕ) (zetas : ℕ → ℤ) (f : ℤ) (L : ℕ)
    (a : ℕ → ℤ) : ℕ → ℤ :=
  fun j => mreduce q QINV R (f * invStages q QINV R zetas (2 ^ L) L a j)

/-- Reference forward layer over ZMod n: fwdStage with the Montgomery
multiply-reduce replaced by multiplication by the effective twiddle w. -/
def fwdStageZ (n : ℕ) (w : ℕ → ZMod n) (D len : ℕ) (a : ℕ → ZMod n) :
    ℕ → ZMod n :=
  fun i =>
    if i / len % 2 = 0 then
      a i + w (D / (2 * len) + i / (2 * len)) * a (i + len)
    else
      a (i - len) - w (D / (2 * len) + i / (2 * len)) * a i

/-- Reference forward layer fold over ZMod n, mirroring nttStages. -/
def nttStagesZ (n : ℕ) (w : ℕ → ZMod n) (D : ℕ) :
    ℕ → (ℕ → ZMod n) → (ℕ → ZMod n)
  | 0, a => a
  | s + 1, a => nttStagesZ n w D s (fwdStageZ n w D (2 ^ s) a)

/-- Reference inverse layer over ZMod n, mirroring invStage. -/
def invStageZ (n : ℕ) (w : ℕ → ZMod n) (D len : ℕ) (a : ℕ → ZMod n) :
    ℕ → ZMod n :=
  fun i =>
    if i / len % 2 = 0 then
      a i + a (i + len)
    else
      -w (D / len - 1 - i / (2 * len)) * (a (i - len) - a i)

/-- Reference inverse layer fold over ZMod n, mirroring invStages. -/
def invStagesZ (n : ℕ) (w : ℕ → ZMod n) (D : ℕ) :
    ℕ → (ℕ → ZMod n) → (ℕ → ZMod n)
  | 0, a => a
  | s + 1, a => invStageZ n w D (2 ^ s) (invStagesZ n w D s a)

/-- Modelled from the spec: the header ntt.h holding the zetas table is not
among the given sources.  Section 4.B fixes the convention (negacyclic,
bit-reversed twiddles); the table entry m is the Montgomery form
R * psi^(brv m) mod q of the bit-reversed power of the primitive 2*dim-th
root of unity psi. -/
def zetasModel (q R psi : ℤ) (L : ℕ) : ℕ → ℤ :=
  fun m => R * psi ^ brv L m % q

/-- A primitive 4096-th root of unity modulo 8380417 (order 4096 element:
psi32 = 10^((q-1)/4096) mod q), for the 32-bit kernel with dim = 2048. -/
def psi32 : ℤ := 1856698

/-- The unit-impulse input polynomial. -/
def delta0 : ℕ → ℤ := fun i => if i = 0 then 1 else 0

/-! ## Theorems -/

/-- C7 counterexample: the claim as stated is false, because the configured
digit bound Bg = 1 <<< 17 equals 2^17 and is not strictly below it. -/
theorem c7_counterexample : ¬ (crtq1 * crtq2 < 2 ^ 56 ∧ Bg < 2 ^ 17) := by
  decide

/-- C7 (amended): the product of the CRT primes crtq1 * crtq2 = crtMod is
below 2^56, and the configured decomposition digit bound satisfies
Bg = 2^17 (hence Bg is at most 2^17, not strictly below it). -/
theorem c7_overflow_margins :
    crtMod = crtq1 * crtq2 ∧ crtq1 * crtq2 < 2 ^ 56 ∧ Bg = 2 ^ 17 := by
  refine ⟨rfl, by decide, by decide⟩

/-- C8: every value produced by sample_guass (single and array variant) lies
in the ternary set {0, 1, modulus - 1}. -/
theorem c8_sample_guass_ternary (r modulus : ℕ) (h : 1 < modulus)
    (rs : ℕ → ℕ) (i : ℕ) :
    (sample_guass r modulus = 0 ∨ sample_guass r modulus = 1 ∨
      sample_guass r modulus = modulus - 1) ∧
    (sample_guass_arr rs modulus i = 0 ∨ sample_guass_arr rs modulus i = 1 ∨
      sample_guass_arr rs modulus i = modulus - 1) := by
  have key : ∀ t : ℕ, sample_guass t modulus = 0 ∨ sample_guass t modulus = 1 ∨
      sample_guass t modulus = modulus - 1 := by
    intro t
    unfold sample_guass
    have h3 : t % 3 = 0 ∨ t % 3 = 1 ∨ t % 3 = 2 := by omega
    rcases h3 with h3 | h3 | h3 <;> rw [h3] <;> norm_num
  exact ⟨key r, key (rs i)⟩

/-- C8 witness at modulus 3 and rand values 5 and 7. -/
theorem c8_witness :
    1 < 3 ∧
    ((sample_guass 5 3 = 0 ∨ sample_guass 5 3 = 1 ∨ sample_guass 5 3 = 3 - 1) ∧
      (sample_guass_arr (fun _ => 7) 3 0 = 0 ∨
        sample_guass_arr (fun _ => 7) 3 0 = 1 ∨
        sample_guass_arr (fun _ => 7) 3 0 = 3 - 1)) :=
  ⟨by decide, c8_sample_guass_ternary 5 3 (by decide) (fun _ => 7) 0⟩

/-- C3: for every row in [0, N), the plaintext vector built by query is
nonzero at exactly one index, carrying Delta at index 0 when row = 0 and
bigMod - Delta at index N - row otherwise. -/
theorem c3_query_message_onehot (row : ℕ) (hrow : row < N) :
    (∀ i, i < N →
      (query_message N row i ≠ 0 ↔ i = if row = 0 then 0 else N - row)) ∧
    query_message N row (if row = 0 then 0 else N - row) =
      (if row = 0 then Delta else bigMod - Delta) := by
  by_cases h0 : row = 0
  · subst h0
    refine ⟨fun i _ => ?_, by norm_num [query_message, Delta]⟩
    simp only [query_message, if_pos rfl]
    by_cases hi : i = 0 <;> simp [hi, Delta]
  · refine ⟨fun i _ => ?_, ?_⟩
    · simp only [query_message, if_neg h0]
      by_cases hi : i = N - row <;> simp [hi, h0, bigMod, Delta]
    · simp [query_message, h0, bigMod, Delta]

/-- C3 witness at row 3. -/
theorem c3_witness :
    3 < N ∧
    ((∀ i, i < N →
      (query_message N 3 i ≠ 0 ↔ i = if 3 = 0 then 0 else N - 3)) ∧
    query_message N 3 (if 3 = 0 then 0 else N - 3) =
      (if 3 = 0 then Delta else bigMod - Delta)) :=
  ⟨by decide, c3_query_message_onehot 3 (by decide)⟩

/-- C5 counterexample: the ciphertext returned by query does not carry a
flag consistent with both components; its isNtt flag is false while b is
left in NTT form (which the source itself notes at query.cpp line 28). -/
theorem c5_counterexample : ¬ flag_consistent query_forms := by
  unfold flag_consistent
  decide

/-- C5 (amended): for the ciphertext returned by query the isNtt flag (false)
describes the a component, which is in coefficient form, but not the b
component, which stays in NTT form. -/
theorem c5_query_flag :
    query_forms.isNtt = false ∧
    query_forms.aForm = formOfFlag query_forms.isNtt ∧
    query_forms.bForm = Form.ntt := by
  decide

/-- C9: coefficient-wise modular subtraction is correct: for in-range inputs
the result equals (a[i] - b[i]) mod modulus and lies in [0, modulus). -/
theorem c9_subtraction (a b : ℕ → ℕ) (modulus : ℕ) (h0 : 0 < modulus)
    (h1 : modulus < 2 ^ 63) (ha : ∀ j, j < dim → a j < modulus)
    (hb : ∀ j, j < dim → b j < modulus) (i : ℕ) (hi : i < dim) :
    subtraction a b modulus i = ((a i : ℤ) - (b i : ℤ)) % (modulus : ℤ) ∧
    0 ≤ subtraction a b modulus i ∧ subtraction a b modulus i < (modulus : ℤ) := by
  have hai := ha i hi
  have hbi := hb i hi
  unfold subtraction subtraction_coeff
  have e : (2 : ℕ) ^ 64 = 18446744073709551616 := by norm_num
  have hb1 : ((a i : ℤ) - (b i : ℤ)).bmod (2 ^ 64) = (a i : ℤ) - (b i : ℤ) := by
    rw [e, Int.bmod_def]
    split <;> omega
  rw [hb1]
  by_cases hneg : (a i : ℤ) - (b i : ℤ) < 0
  · rw [if_pos hneg]
    have hmod : ((a i : ℤ) - (b i : ℤ)) % (modulus : ℤ) =
        ((a i : ℤ) - (b i : ℤ) + (modulus : ℤ)) % (modulus : ℤ) := by
      conv_lhs => rw [show (a i : ℤ) - (b i : ℤ) =
        ((a i : ℤ) - (b i : ℤ) + (modulus : ℤ)) + (modulus : ℤ) * (-1) by ring]
      rw [Int.add_mul_emod_self_left]
    rw [hmod, Int.emod_eq_of_lt (by omega) (by omega)]
    omega
  · rw [if_neg hneg]
    rw [Int.emod_eq_of_lt (by omega) (by omega)]
    omega

/-- C9 witness: arrays constantly 5 and 7 under modulus 11 at index 0. -/
theorem c9_witness :
    0 < 11 ∧ 11 < 2 ^ 63 ∧
    (subtraction (fun _ => 5) (fun _ => 7) 11 0 =
        (((5 : ℕ) : ℤ) - ((7 : ℕ) : ℤ)) % ((11 : ℕ) : ℤ) ∧
      0 ≤ subtraction (fun _ => 5) (fun _ => 7) 11 0 ∧
      subtraction (fun _ => 5) (fun _ => 7) 11 0 < ((11 : ℕ) : ℤ)) :=
  ⟨by decide, by norm_num,
    c9_subtraction (fun _ => 5) (fun _ => 7) 11 (by decide) (by norm_num)
      (fun j _ => by norm_num) (fun j _ => by norm_num) 0 (by decide)⟩

/-- C10: the 64-bit Montgomery reduction is exact: for |a| < 2^63 * bigMod
the result r satisfies r * 2^64 congruent to a modulo bigMod, and
|r| * 2^64 < 2^64 * bigMod + |a| (the bound |r| < bigMod + |a| / 2^64 scaled
by 2^64), so no narrowing step loses information. -/
theorem c10_montgomery_reduce (a : ℤ)
    (h : |a| < 2 ^ 63 * (bigMod : ℤ)) :
    montgomery_reduce a * 2 ^ 64 % (bigMod : ℤ) = a % (bigMod : ℤ) ∧
    |montgomery_reduce a| * 2 ^ 64 < 2 ^ 64 * (bigMod : ℤ) + |a| := by
  unfold montgomery_reduce
  rw [Int.bmod_mul_bmod]
  set t : ℤ := (a * (bigQINV : ℤ)).bmod (2 ^ 64) with ht
  have e : (2 : ℕ) ^ 64 = 18446744073709551616 := by norm_num
  have hbig : (bigMod : ℤ) = 1125899906826241 := by norm_num [bigMod]
  -- t is in the int64 range
  have htlo : -(2 ^ 63) ≤ t := by
    have := Int.le_bmod (x := a * (bigQINV : ℤ)) (m := 2 ^ 64) (by positivity)
    omega
  have hthi : t < 2 ^ 63 := by
    have := Int.bmod_lt (x := a * (bigQINV : ℤ)) (m := 2 ^ 64) (by positivity)
    omega
  -- the subtraction is an exact multiple of 2^64
  have hdvd : (2 ^ 64 : ℤ) ∣ a - t * (bigMod : ℤ) := by
    have htmod : t % (2 ^ 64 : ℤ) = a * (bigQINV : ℤ) % (2 ^ 64 : ℤ) := by
      have := Int.bmod_emod (x := a * (bigQINV : ℤ)) (m := 2 ^ 64)
      simpa [ht] using this
    have h1 : (a - t * (bigMod : ℤ)) % (2 ^ 64 : ℤ) =
        (a - a * (bigQINV : ℤ) * (bigMod : ℤ)) % (2 ^ 64 : ℤ) := by
      conv_lhs => rw [Int.sub_emod, Int.mul_emod, htmod, ← Int.mul_emod,
        ← Int.sub_emod]
    have h2 : (2 ^ 64 : ℤ) ∣ a - a * (bigQINV : ℤ) * (bigMod : ℤ) := by
      have hk : a - a * (bigQINV : ℤ) * (bigMod : ℤ) =
          2 ^ 64 * (a * (-4329595486146)) := by
        have hqq : ((bigQINV : ℤ) * (bigMod : ℤ)) = 2 ^ 64 * 4329595486146 + 1 := by
          norm_num [bigQINV, bigMod]
        rw [mul_assoc, hqq]
        ring
      exact ⟨a * (-4329595486146), hk⟩
    rw [Int.dvd_iff_emod_eq_zero, h1, ← Int.dvd_iff_emod_eq_zero]
    exact h2
  obtain ⟨v, hv⟩ := hdvd
  have hfd : (a - t * (bigMod : ℤ)).fdiv (2 ^ 64) = v := by
    rw [hv, Int.mul_fdiv_cancel_left]
    norm_num
  -- the quotient fits in an int64, so the final narrowing is the identity
  have hvbound : |v| < (bigMod : ℤ) := by
    have habs : |a - t * (bigMod : ℤ)| < 2 ^ 64 * (bigMod : ℤ) := by
      have h1 : |t * (bigMod : ℤ)| ≤ 2 ^ 63 * (bigMod : ℤ) := by
        rw [abs_mul]
        have : |t| ≤ 2 ^ 63 := by
          rw [abs_le]; omega
        have hb : |(bigMod : ℤ)| = (bigMod : ℤ) := by
          rw [abs_of_nonneg]; positivity
        rw [hb]
        exact mul_le_mul_of_nonneg_right this (by positivity)
      calc |a - t * (bigMod : ℤ)| ≤ |a| + |t * (bigMod : ℤ)| := abs_sub _ _
        _ < 2 ^ 63 * (bigMod : ℤ) + 2 ^ 63 * (bigMod : ℤ) := by omega
        _ = 2 ^ 64 * (bigMod : ℤ) := by ring
    rw [hv, abs_mul] at habs
    have : |(2 : ℤ) ^ 64| = 2 ^ 64 := by norm_num
    rw [this] at habs
    omega
  have hvb : v.bmod (2 ^ 64) = v := by
    obtain ⟨hl, hr⟩ := abs_lt.mp hvbound
    rw [hbig] at hl hr
    rw [e, Int.bmod_def]
    split <;> omega
  rw [hfd, hvb]
  constructor
  · have hcong : v * 2 ^ 64 = a - (bigMod : ℤ) * t := by linarith [hv]
    rw [hcong, Int.sub_emod, Int.mul_emod_right, Int.sub_zero, Int.emod_emod_of_dvd]
    exact dvd_refl _
  · have habs2 : |v| * 2 ^ 64 = |2 ^ 64 * v| := by
      rw [abs_mul, abs_of_nonneg (by positivity : (0 : ℤ) ≤ 2 ^ 64), mul_comm]
    rw [habs2, ← hv]
    have h1 : |t * (bigMod : ℤ)| ≤ 2 ^ 63 * (bigMod : ℤ) := by
      rw [abs_mul]
      have h2 : |t| ≤ 2 ^ 63 := by rw [abs_le]; omega
      have hb : |(bigMod : ℤ)| = (bigMod : ℤ) := by
        rw [abs_of_nonneg]; positivity
      rw [hb]
      exact mul_le_mul_of_nonneg_right h2 (by positivity)
    calc |a - t * (bigMod : ℤ)| ≤ |a| + |t * (bigMod : ℤ)| := abs_sub _ _
      _ ≤ |a| + 2 ^ 63 * (bigMod : ℤ) := by omega
      _ < 2 ^ 64 * (bigMod : ℤ) + |a| := by
          have hpos : (0 : ℤ) < (bigMod : ℤ) := by norm_num [bigMod]
          nlinarith [abs_nonneg a]

/-- C10 witness at a = 12345. -/
theorem c10_witness :
    |(12345 : ℤ)| < 2 ^ 63 * (bigMod : ℤ) ∧
    (montgomery_reduce 12345 * 2 ^ 64 % (bigMod : ℤ) = (12345 : ℤ) % (bigMod : ℤ) ∧
      |montgomery_reduce 12345| * 2 ^ 64 < 2 ^ 64 * (bigMod : ℤ) + |(12345 : ℤ)|) :=
  ⟨by norm_num [bigMod], c10_montgomery_reduce 12345 (by norm_num [bigMod])⟩

/-- C4 counterexample: a raw decrypted residue of the form Delta * m + e with
m = 40000 and e = -8589934591 (so |e| <= Delta/2, i.e. 2|e| <= Delta) for
which recover returns 39999 instead of m: the claimed noise tolerance
Delta/2 is too generous by bigMod - Delta * 2^Pbits = 49153. -/
theorem c4_counterexample :
    (687186177385409 : ℤ) % (bigMod : ℤ) =
      ((Delta : ℤ) * 40000 + (-8589934591)) % (bigMod : ℤ) ∧
    2 * 8589934591 ≤ (Delta : ℤ) ∧ 40000 < 2 ^ Pbits ∧
    recover_coeff 687186177385409 bigMod = 39999 := by
  refine ⟨by decide, by decide, by decide, by decide⟩

/-- Characterization of roundl_div away from ties: if t is strictly within
half of d from k * d, then t / d rounds to k. -/
theorem roundl_div_eq (t : ℤ) (d : ℕ) (k : ℤ) (hd : 0 < (d : ℤ))
    (h1 : -(d : ℤ) < 2 * (t - k * d)) (h2 : 2 * (t - k * d) < d) :
    roundl_div t d = k := by
  unfold roundl_div
  split_ifs with ht
  · have hr : 2 * t + d = (2 * (t - k * d) + d) + k * (2 * d) := by ring
    rw [hr, Int.add_mul_ediv_right _ _ (by positivity : (2 * d : ℤ) ≠ 0),
      Int.ediv_eq_zero_of_lt (by omega) (by omega), zero_add]
  · have hr : 2 * -t + d = (d - 2 * (t - k * d)) + (-k) * (2 * d) := by ring
    rw [hr, Int.add_mul_ediv_right _ _ (by positivity : (2 * d : ℤ) ≠ 0),
      Int.ediv_eq_zero_of_lt (by omega) (by omega), zero_add, neg_neg]

/-- C4 (amended): recover returns exactly the plaintext m at every
coefficient whose raw decrypted residue is Delta * m + e modulo bigMod,
provided the noise satisfies -(Delta/2 - 49153) <= e <= Delta/2 (the lower
tolerance is smaller than the claimed Delta/2 by
bigMod - Delta * 2^Pbits = 49153, as the counterexample forces). -/
theorem c4_recover_exact (m : ℕ) (e : ℤ) (v : ℕ)
    (hm : m < 2 ^ Pbits)
    (helow : -8589885438 ≤ e) (hehigh : 2 * e ≤ (Delta : ℤ))
    (hv : (v : ℤ) = ((Delta : ℤ) * m + e) % (bigMod : ℤ)) :
    recover_coeff v bigMod = m := by
  have hD : (Delta : ℤ) = 17179869183 := by norm_num [Delta]
  have hB : (bigMod : ℤ) = 1125899906826241 := by norm_num [bigMod]
  have hDn : Delta = 17179869183 := by norm_num [Delta]
  have hP : (2 : ℕ) ^ Pbits = 65536 := by norm_num [Pbits]
  have hPI : (2 : ℤ) ^ Pbits = 65536 := by norm_num [Pbits]
  have hhalf : bigMod >>> 1 = 562949953413120 := by
    norm_num [bigMod, Nat.shiftRight_eq_div_pow]
  rw [hD] at hehigh
  rw [hD, hB] at hv
  rw [hP] at hm
  have hodd : 2 * e ≠ 17179869183 := by omega
  set X : ℤ := (17179869183 : ℤ) * m + e with hX
  have hXlt : X < 1125899906826241 := by omega
  have hvpin : (v : ℤ) = X ∨ (X < 0 ∧ (v : ℤ) = X + 1125899906826241) := by
    rcases le_or_lt 0 X with hge | hlt
    · left
      rw [hv, Int.emod_eq_of_lt hge hXlt]
    · right
      refine ⟨hlt, ?_⟩
      have h1 : X % 1125899906826241 =
          (X + 1125899906826241) % 1125899906826241 := by
        conv_lhs => rw [show X = (X + 1125899906826241) +
          1125899906826241 * (-1) by ring]
        rw [Int.add_mul_emod_self_left]
      rw [hv, h1, Int.emod_eq_of_lt (by omega) (by omega)]
  simp only [recover_coeff, hhalf, hB, hPI, hDn]
  by_cases hvh : 562949953413120 < v
  · rw [if_pos hvh]
    -- centered residue is X - bigMod (or X itself only outside this branch)
    rcases hvpin with hvp | ⟨hneg, hvp⟩
    · -- v = X > half: the quotient rounds to m - 65536, then 2^Pbits is added
      rw [hvp, roundl_div_eq _ _ (m - 65536) (by norm_num) (by omega) (by omega)]
      rw [if_pos (by omega)]
      omega
    · -- X < 0, v = X + bigMod: here m = 0 and the quotient rounds to 0
      rw [hvp]
      have hm0 : m = 0 := by omega
      rw [roundl_div_eq _ _ m (by norm_num) (by omega) (by omega)]
      rw [if_neg (by omega)]
      omega
  · rw [if_neg hvh]
    -- centered residue is X itself and the quotient rounds to m
    rcases hvpin with hvp | ⟨hneg, hvp⟩
    · rw [hvp, roundl_div_eq _ _ m (by norm_num) (by omega) (by omega)]
      rw [if_neg (by omega)]
      omega
    · -- X < 0 forces v = X + bigMod > half, contradicting this branch
      exfalso
      omega

/-- C4 witness at m = 5, e = 0, v = Delta * 5. -/
theorem c4_witness :
    5 < 2 ^ Pbits ∧ -8589885438 ≤ (0 : ℤ) ∧ 2 * (0 : ℤ) ≤ (Delta : ℤ) ∧
    ((85899345915 : ℕ) : ℤ) = ((Delta : ℤ) * 5 + 0) % (bigMod : ℤ) ∧
    recover_coeff 85899345915 bigMod = 5 :=
  ⟨by decide, by decide, by decide, by decide,
    c4_recover_exact 5 0 85899345915 (by decide) (by decide) (by decide)
      (by decide)⟩

/-- The centered digit lies in (-H, H] for B = 2H and differs from v by a
multiple of B. -/
theorem sdigit_bounds (B H : ℕ) (hH : B = 2 * H) (hHpos : 0 < H) (v : ℤ) :
    -(H : ℤ) < sdigit B v ∧ sdigit B v ≤ (H : ℤ) ∧
    (B : ℤ) ∣ v - sdigit B v := by
  have hBpos : (0 : ℤ) < (B : ℤ) := by
    have : 0 < B := by omega
    exact_mod_cast this
  have hr0 : 0 ≤ v % (B : ℤ) := Int.emod_nonneg v (by omega)
  have hr1 : v % (B : ℤ) < (B : ℤ) := Int.emod_lt_of_pos v hBpos
  have hdvd0 : v - v % (B : ℤ) = (B : ℤ) * (v / (B : ℤ)) := by
    rw [Int.emod_def]; ring
  have hhalf : (B : ℤ) / 2 = (H : ℤ) := by
    have : (B : ℤ) = 2 * (H : ℤ) := by exact_mod_cast hH
    rw [this, Int.mul_ediv_cancel_left _ (by norm_num)]
  have hBH : (B : ℤ) = 2 * (H : ℤ) := by exact_mod_cast hH
  unfold sdigit
  split_ifs with hc
  · rw [hhalf] at hc
    refine ⟨by omega, by omega, ?_⟩
    exact ⟨v / (B : ℤ) + 1, by rw [mul_add, ← hdvd0]; ring⟩
  · rw [hhalf] at hc
    refine ⟨by omega, by omega, ⟨v / (B : ℤ), by rw [← hdvd0]⟩⟩

/-- Exactness of the centered digit expansion: for v within the span of l
centered digits, the weighted digit sum reproduces v exactly and every digit
lies in (-H, H]. -/
theorem cdigits_exact (B H : ℕ) (hH : B = 2 * H) (hHpos : 0 < H) (l : ℕ) :
    ∀ v : ℤ,
      -(((H : ℤ) - 1) * (geomSum B l : ℕ)) ≤ v →
      v ≤ (H : ℤ) * (geomSum B l : ℕ) →
      wsum B (cdigits B l v) = v ∧
      ∀ d ∈ cdigits B l v, -(H : ℤ) < d ∧ d ≤ (H : ℤ) := by
  induction l with
  | zero =>
    intro v h1 h2
    have hg : ((geomSum B 0 : ℕ) : ℤ) = 0 := by simp [geomSum]
    rw [hg] at h1 h2
    have hv : v = 0 := by
      have h1a : (0 : ℤ) ≤ v := by simpa using h1
      have h2a : v ≤ 0 := by simpa using h2
      omega
    subst hv
    exact ⟨by simp [cdigits, wsum], by simp [cdigits]⟩
  | succ l ih =>
    intro v h1 h2
    have hBpos : (0 : ℤ) < (B : ℤ) := by
      have : 0 < B := by omega
      exact_mod_cast this
    have hBH : (B : ℤ) = 2 * (H : ℤ) := by exact_mod_cast hH
    obtain ⟨hd1, hd2, hdvd⟩ := sdigit_bounds B H hH hHpos v
    obtain ⟨w, hw⟩ := hdvd
    have hvw : (v - sdigit B v) / (B : ℤ) = w := by
      rw [hw, Int.mul_ediv_cancel_left _ (by omega)]
    have hg : ((geomSum B (l + 1) : ℕ) : ℤ) =
        1 + (B : ℤ) * (geomSum B l : ℕ) := by
      show ((1 + B * geomSum B l : ℕ) : ℤ) = _
      push_cast
      ring
    set G : ℤ := ((geomSum B l : ℕ) : ℤ) with hGdef
    have hGnonneg : 0 ≤ G := by positivity
    rw [hg] at h1 h2
    have hHZ : (1 : ℤ) ≤ (H : ℤ) := by exact_mod_cast hHpos
    -- bounds on the quotient w
    have hwub : w ≤ (H : ℤ) * G := by
      have hlt : (B : ℤ) * w < (B : ℤ) * ((H : ℤ) * G + 1) := by
        rw [← hw]
        have : v - sdigit B v < v + (H : ℤ) := by omega
        have hv2 : v + (H : ℤ) ≤ (H : ℤ) * (1 + (B : ℤ) * G) + (H : ℤ) := by omega
        have hexp : (H : ℤ) * (1 + (B : ℤ) * G) + (H : ℤ) =
            (B : ℤ) * ((H : ℤ) * G) + 2 * (H : ℤ) := by ring
        have h2H : 2 * (H : ℤ) = (B : ℤ) := by omega
        calc v - sdigit B v < v + (H : ℤ) := this
          _ ≤ (B : ℤ) * ((H : ℤ) * G) + 2 * (H : ℤ) := by omega
          _ = (B : ℤ) * ((H : ℤ) * G + 1) := by rw [h2H]; ring
      have := lt_of_mul_lt_mul_left hlt (le_of_lt hBpos)
      omega
    have hwlb : -(((H : ℤ) - 1) * G) ≤ w := by
      have hlt : (B : ℤ) * (-(((H : ℤ) - 1) * G) - 1) < (B : ℤ) * w := by
        rw [← hw]
        have hlow : -(((H : ℤ) - 1) * (1 + (B : ℤ) * G)) - (H : ℤ) ≤
            v - sdigit B v := by omega
        have hexp : -(((H : ℤ) - 1) * (1 + (B : ℤ) * G)) - (H : ℤ) =
            (B : ℤ) * (-(((H : ℤ) - 1) * G)) - (2 * (H : ℤ) - 1) := by ring
        have h2H : 2 * (H : ℤ) = (B : ℤ) := by omega
        have : (B : ℤ) * (-(((H : ℤ) - 1) * G) - 1) <
            (B : ℤ) * (-(((H : ℤ) - 1) * G)) - (2 * (H : ℤ) - 1) := by
          rw [h2H]; ring_nf; omega
        omega
      have := lt_of_mul_lt_mul_left hlt (le_of_lt hBpos)
      omega
    obtain ⟨hsum, hrange⟩ := ih w hwlb hwub
    have hlist : cdigits B (l + 1) v = sdigit B v :: cdigits B l w := by
      show sdigit B v :: cdigits B l ((v - sdigit B v) / (B : ℤ)) = _
      rw [hvw]
    rw [hlist]
    constructor
    · show sdigit B v + (B : ℤ) * wsum B (cdigits B l w) = v
      rw [hsum]
      omega
    · intro d hd
      rcases List.mem_cons.mp hd with hd | hd
      · subst hd
        exact ⟨hd1, hd2⟩
      · exact hrange d hd

/-- Two times the inverse of two is one modulo an odd q. -/
theorem halfInv_spec (q : ℕ) (hq : Odd q) : 2 * halfInv q = q + 1 := by
  obtain ⟨k, hk⟩ := hq
  unfold halfInv
  omega

/-- C6: gadget decomposition is exact: every digit lies in (-Bg/2, Bg/2]
(stated as -B < 2d <= B), the weighted digit sum times 2^base is congruent
to the input coefficient modulo q, and recontruct returns the input
coefficient modulo q.  The hypotheses delimit the supported parameter
triples: q odd, B even, and l digits spanning the centered residues of q. -/
theorem c6_decompose_reconstruct (q base B l : ℕ) (a : ℕ → ℕ) (i : ℕ)
    (hq : Odd q) (hq1 : 1 < q) (hB2 : 2 ∣ B) (hBpos : 0 < B)
    (hcap : (q - 1) / 2 ≤ (B / 2 - 1) * geomSum B l) :
    (∀ d ∈ decompose_poly q base B l a i,
      -(B : ℤ) < 2 * d ∧ 2 * d ≤ (B : ℤ)) ∧
    wsum B (decompose_poly q base B l a i) * 2 ^ base ≡ (a i : ℤ) [ZMOD q] ∧
    recontruct q base B (decompose_poly q base B l a i) = (a i : ℤ) % q := by
  obtain ⟨H, hH⟩ := hB2
  have hHpos : 0 < H := by omega
  have hBH : (B : ℤ) = 2 * (H : ℤ) := by exact_mod_cast hH
  have hqmod : q % 2 = 1 := Nat.odd_iff.mp hq
  simp only [decompose_poly, decompose, recontruct]
  set r : ℕ := a i * pow2Inv q base % q with hrdef
  have hrq : r < q := Nat.mod_lt _ (by omega)
  set w0 : ℤ := centerRep q r with hw0def
  -- centered bounds on w0
  have hw0b : -((q : ℤ) - 1) ≤ 2 * w0 ∧ 2 * w0 ≤ (q : ℤ) - 1 := by
    rw [hw0def]
    unfold centerRep
    split_ifs with hc <;> omega
  -- capacity: the centered residue is within the digit span
  set G : ℤ := ((geomSum B l : ℕ) : ℤ) with hGdef
  have hGnonneg : 0 ≤ G := by positivity
  have hcapz : (q : ℤ) - 1 ≤ 2 * (((H : ℤ) - 1) * G) := by
    have hBd2 : B / 2 = H := by omega
    rw [hBd2] at hcap
    set P : ℕ := (H - 1) * geomSum B l with hPdef
    have hPz : (P : ℤ) = ((H : ℤ) - 1) * G := by
      rw [hPdef, hGdef]
      push_cast [Nat.cast_sub (by omega : 1 ≤ H)]
      ring
    rw [← hPz]
    omega
  have hHZ : (1 : ℤ) ≤ (H : ℤ) := by exact_mod_cast hHpos
  have hup : w0 ≤ (H : ℤ) * G := by nlinarith [hw0b.1, hw0b.2, hGnonneg]
  have hlo : -(((H : ℤ) - 1) * G) ≤ w0 := by nlinarith [hw0b.1, hw0b.2, hGnonneg]
  obtain ⟨hsum, hrange⟩ := cdigits_exact B H hH hHpos l w0 hlo hup
  -- congruences modulo q
  have hw0r : w0 ≡ (r : ℤ) [ZMOD q] := by
    rw [hw0def]
    unfold centerRep
    split_ifs with hc
    · show ((r : ℤ) - q) % q = (r : ℤ) % q
      rw [Int.sub_emod, Int.emod_self, sub_zero, Int.emod_emod_of_dvd _ (dvd_refl _)]
    · exact Int.ModEq.refl _
  have hra : (r : ℤ) ≡ (a i : ℤ) * ((pow2Inv q base : ℕ) : ℤ) [ZMOD q] := by
    rw [hrdef]
    push_cast
    show ((a i : ℤ) * (pow2Inv q base : ℤ)) % q % q = _ % q
    rw [Int.emod_emod_of_dvd _ (dvd_refl _)]
  have hkey : ((pow2Inv q base : ℕ) : ℤ) * 2 ^ base ≡ 1 [ZMOD q] := by
    have hhalf : ((halfInv q : ℕ) : ℤ) * 2 ≡ 1 [ZMOD q] := by
      have h2 : 2 * halfInv q = q + 1 := halfInv_spec q hq
      have hz : ((halfInv q : ℕ) : ℤ) * 2 = (q : ℤ) + 1 := by
        exact_mod_cast (by omega : halfInv q * 2 = q + 1)
      rw [hz]
      show ((q : ℤ) + 1) % q = 1 % q
      conv_lhs => rw [show (q : ℤ) + 1 = 1 + (q : ℤ) * 1 by ring]
      rw [Int.add_mul_emod_self_left]
    have hpow : (((halfInv q : ℕ) : ℤ) * 2) ^ base ≡ 1 ^ base [ZMOD q] :=
      Int.ModEq.pow base hhalf
    have hcast : ((pow2Inv q base : ℕ) : ℤ) ≡
        ((halfInv q : ℕ) : ℤ) ^ base [ZMOD q] := by
      unfold pow2Inv
      push_cast
      show ((halfInv q : ℤ) ^ base) % q % q = _ % q
      rw [Int.emod_emod_of_dvd _ (dvd_refl _)]
    calc ((pow2Inv q base : ℕ) : ℤ) * 2 ^ base
        ≡ ((halfInv q : ℕ) : ℤ) ^ base * 2 ^ base [ZMOD q] := hcast.mul_right _
      _ = (((halfInv q : ℕ) : ℤ) * 2) ^ base := by rw [mul_pow]
      _ ≡ 1 ^ base [ZMOD q] := hpow
      _ = 1 := one_pow base
  have hchain : wsum B (cdigits B l w0) * 2 ^ base ≡ (a i : ℤ) [ZMOD q] := by
    rw [hsum]
    calc w0 * 2 ^ base
        ≡ (r : ℤ) * 2 ^ base [ZMOD q] := hw0r.mul_right _
      _ ≡ ((a i : ℤ) * ((pow2Inv q base : ℕ) : ℤ)) * 2 ^ base [ZMOD q] :=
          hra.mul_right _
      _ = (a i : ℤ) * (((pow2Inv q base : ℕ) : ℤ) * 2 ^ base) := by ring
      _ ≡ (a i : ℤ) * 1 [ZMOD q] := hkey.mul_left _
      _ = (a i : ℤ) := mul_one _
  refine ⟨?_, hchain, hchain⟩
  intro d hd
  have := hrange d hd
  omega

/-- C6 witness at the configured parameters q = bigMod, base = Base = 0,
B = Bg, l = ell, on the constant polynomial 123. -/
theorem c6_witness :
    Odd bigMod ∧ 1 < bigMod ∧ 2 ∣ Bg ∧ 0 < Bg ∧
    (bigMod - 1) / 2 ≤ (Bg / 2 - 1) * geomSum Bg ell ∧
    ((∀ d ∈ decompose_poly bigMod Base Bg ell (fun _ => 123) 0,
      -(Bg : ℤ) < 2 * d ∧ 2 * d ≤ (Bg : ℤ)) ∧
    wsum Bg (decompose_poly bigMod Base Bg ell (fun _ => 123) 0) * 2 ^ Base ≡
      ((123 : ℕ) : ℤ) [ZMOD bigMod] ∧
    recontruct bigMod Base Bg (decompose_poly bigMod Base Bg ell (fun _ => 123) 0) =
      ((123 : ℕ) : ℤ) % bigMod) :=
  ⟨Nat.odd_iff.mpr (by norm_num [bigMod]), by norm_num [bigMod],
    ⟨65536, by decide⟩, by decide, by decide,
    c6_decompose_reconstruct bigMod Base Bg ell (fun _ => 123) 0
      (Nat.odd_iff.mpr (by norm_num [bigMod])) (by norm_num [bigMod])
      ⟨65536, by decide⟩ (by decide) (by decide)⟩

/-- The generic Montgomery reduce returns the input scaled by the inverse of
the Montgomery constant, seen modulo n: with rho the inverse of R mod n, the
reduction of a is rho * a. -/
theorem mreduce_cast (n : ℕ) (QV : ℤ) (R : ℕ) (ρ : ZMod n)
    (hQ : (R : ℤ) ∣ QV * (n : ℤ) - 1) (hRpos : 0 < R)
    (hρ : ((R : ℕ) : ZMod n) * ρ = 1) (a : ℤ) :
    ((mreduce (n : ℤ) QV R a : ℤ) : ZMod n) = ρ * ((a : ℤ) : ZMod n) := by
  unfold mreduce
  set t : ℤ := (a * QV).bmod R with ht
  have htmod : t % ((R : ℕ) : ℤ) = a * QV % ((R : ℕ) : ℤ) := Int.bmod_emod
  have hdvd : ((R : ℕ) : ℤ) ∣ a - t * (n : ℤ) := by
    have h1 : (a - t * (n : ℤ)) % ((R : ℕ) : ℤ) =
        (a - a * QV * (n : ℤ)) % ((R : ℕ) : ℤ) := by
      conv_lhs => rw [Int.sub_emod, Int.mul_emod, htmod, ← Int.mul_emod,
        ← Int.sub_emod]
    have h2 : ((R : ℕ) : ℤ) ∣ a - a * QV * (n : ℤ) := by
      obtain ⟨k, hk⟩ := hQ
      refine ⟨-(a * k), ?_⟩
      calc a - a * QV * (n : ℤ) = -(a * (QV * (n : ℤ) - 1)) := by ring
        _ = -(a * (((R : ℕ) : ℤ) * k)) := by rw [hk]
        _ = ((R : ℕ) : ℤ) * -(a * k) := by ring
    rw [Int.dvd_iff_emod_eq_zero, h1, ← Int.dvd_iff_emod_eq_zero]
    exact h2
  obtain ⟨v, hv⟩ := hdvd
  have hRz : ((R : ℕ) : ℤ) ≠ 0 := by
    have : (0 : ℤ) < ((R : ℕ) : ℤ) := by exact_mod_cast hRpos
    omega
  have hfd : (a - t * (n : ℤ)).fdiv ((R : ℕ) : ℤ) = v := by
    rw [hv, Int.mul_fdiv_cancel_left _ hRz]
  rw [hfd]
  have hcast : ((a : ℤ) : ZMod n) = ((R : ℕ) : ZMod n) * ((v : ℤ) : ZMod n) := by
    have hz := congrArg (fun z : ℤ => ((z : ℤ) : ZMod n)) hv
    push_cast at hz
    rw [ZMod.natCast_self] at hz
    simpa using hz
  calc ((v : ℤ) : ZMod n) = 1 * ((v : ℤ) : ZMod n) := (one_mul _).symm
    _ = (ρ * ((R : ℕ) : ZMod n)) * ((v : ℤ) : ZMod n) := by
        rw [mul_comm ρ _, hρ]
    _ = ρ * (((R : ℕ) : ZMod n) * ((v : ℤ) : ZMod n)) := by ring
    _ = ρ * ((a : ℤ) : ZMod n) := by rw [← hcast]

/-- Casting one forward layer to ZMod n gives the reference layer with the
effective twiddles rho * zetas[m]. -/
theorem fwdStage_cast (n : ℕ) (QV : ℤ) (R : ℕ) (ρ : ZMod n)
    (hQ : (R : ℤ) ∣ QV * (n : ℤ) - 1) (hRpos : 0 < R)
    (hρ : ((R : ℕ) : ZMod n) * ρ = 1) (zetas : ℕ → ℤ) (D len : ℕ)
    (a : ℕ → ℤ) (i : ℕ) :
    ((fwdStage (n : ℤ) QV R zetas D len a i : ℤ) : ZMod n) =
      fwdStageZ n (fun m => ρ * ((zetas m : ℤ) : ZMod n)) D len
        (fun j => ((a j : ℤ) : ZMod n)) i := by
  unfold fwdStage fwdStageZ
  split_ifs with hc
  · push_cast
    rw [mreduce_cast n QV R ρ hQ hRpos hρ]
    push_cast
    ring
  · push_cast
    rw [mreduce_cast n QV R ρ hQ hRpos hρ]
    push_cast
    ring

/-- Casting one inverse layer to ZMod n gives the reference inverse layer. -/
theorem invStage_cast (n : ℕ) (QV : ℤ) (R : ℕ) (ρ : ZMod n)
    (hQ : (R : ℤ) ∣ QV * (n : ℤ) - 1) (hRpos : 0 < R)
    (hρ : ((R : ℕ) : ZMod n) * ρ = 1) (zetas : ℕ → ℤ) (D len : ℕ)
    (a : ℕ → ℤ) (i : ℕ) :
    ((invStage (n : ℤ) QV R zetas D len a i : ℤ) : ZMod n) =
      invStageZ n (fun m => ρ * ((zetas m : ℤ) : ZMod n)) D len
        (fun j => ((a j : ℤ) : ZMod n)) i := by
  unfold invStage invStageZ
  split_ifs with hc
  · push_cast
    ring
  · rw [mreduce_cast n QV R ρ hQ hRpos hρ]
    push_cast
    ring

/-- Casting the forward layer fold to ZMod n. -/
theorem nttStages_cast (n : ℕ) (QV : ℤ) (R : ℕ) (ρ : ZMod n)
    (hQ : (R : ℤ) ∣ QV * (n : ℤ) - 1) (hRpos : 0 < R)
    (hρ : ((R : ℕ) : ZMod n) * ρ = 1) (zetas : ℕ → ℤ) (D : ℕ) (s : ℕ) :
    ∀ (a : ℕ → ℤ) (i : ℕ),
      ((nttStages (n : ℤ) QV R zetas D s a i : ℤ) : ZMod n) =
        nttStagesZ n (fun m => ρ * ((zetas m : ℤ) : ZMod n)) D s
          (fun j => ((a j : ℤ) : ZMod n)) i := by
  induction s with
  | zero => intro a i; rfl
  | succ s ih =>
    intro a i
    show ((nttStages (n : ℤ) QV R zetas D s
        (fwdStage (n : ℤ) QV R zetas D (2 ^ s) a) i : ℤ) : ZMod n) = _
    rw [ih (fwdStage (n : ℤ) QV R zetas D (2 ^ s) a) i]
    show nttStagesZ n _ D s
        (fun j => ((fwdStage (n : ℤ) QV R zetas D (2 ^ s) a j : ℤ) : ZMod n)) i = _
    have hfun : (fun j => ((fwdStage (n : ℤ) QV R zetas D (2 ^ s) a j : ℤ) : ZMod n)) =
        fwdStageZ n (fun m => ρ * ((zetas m : ℤ) : ZMod n)) D (2 ^ s)
          (fun j => ((a j : ℤ) : ZMod n)) := by
      funext j
      exact fwdStage_cast n QV R ρ hQ hRpos hρ zetas D (2 ^ s) a j
    rw [hfun]
    rfl

/-- Casting the inverse layer fold to ZMod n. -/
theorem invStages_cast (n : ℕ) (QV : ℤ) (R : ℕ) (ρ : ZMod n)
    (hQ : (R : ℤ) ∣ QV * (n : ℤ) - 1) (hRpos : 0 < R)
    (hρ : ((R : ℕ) : ZMod n) * ρ = 1) (zetas : ℕ → ℤ) (D : ℕ) (s : ℕ) :
    ∀ (a : ℕ → ℤ) (i : ℕ),
      ((invStages (n : ℤ) QV R zetas D s a i : ℤ) : ZMod n) =
        invStagesZ n (fun m => ρ * ((zetas m : ℤ) : ZMod n)) D s
          (fun j => ((a j : ℤ) : ZMod n)) i := by
  induction s with
  | zero => intro a i; rfl
  | succ s ih =>
    intro a i
    show ((invStage (n : ℤ) QV R zetas D (2 ^ s)
        (invStages (n : ℤ) QV R zetas D s a) i : ℤ) : ZMod n) = _
    rw [invStage_cast n QV R ρ hQ hRpos hρ zetas D (2 ^ s)
      (invStages (n : ℤ) QV R zetas D s a) i]
    show invStageZ n _ D (2 ^ s)
        (fun j => ((invStages (n : ℤ) QV R zetas D s a j : ℤ) : ZMod n)) i = _
    have hfun : (fun j => ((invStages (n : ℤ) QV R zetas D s a j : ℤ) : ZMod n)) =
        invStagesZ n (fun m => ρ * ((zetas m : ℤ) : ZMod n)) D s
          (fun j => ((a j : ℤ) : ZMod n)) := by
      funext j
      exact ih a j
    rw [hfun]
    rfl

/-- Butterfly index bookkeeping for width len = 2^s inside an array of size
2^L: an index decomposes into its block b and offset r, the block count is
h = 2^(L-1-s), and the twiddle counter arithmetic of the source divides out
exactly. -/
theorem pair_decomp (L s : ℕ) (hs : s < L) (i : ℕ) (hi : i < 2 ^ L) :
    ∃ b r h : ℕ,
      h = 2 ^ (L - 1 - s) ∧
      i / (2 * 2 ^ s) = b ∧ i % (2 * 2 ^ s) = r ∧
      r < 2 * 2 ^ s ∧ i = r + 2 * 2 ^ s * b ∧ b < h ∧
      2 ^ L / (2 * 2 ^ s) = h ∧ 2 ^ L / 2 ^ s = 2 * h := by
  have hlenpos : 0 < 2 ^ s := pow_pos (by norm_num) s
  have h2lenpos : 0 < 2 * 2 ^ s := by omega
  have hD : 2 ^ L = 2 * 2 ^ s * 2 ^ (L - 1 - s) := by
    have hsum : s + 1 + (L - 1 - s) = L := by omega
    calc 2 ^ L = 2 ^ (s + 1 + (L - 1 - s)) := by rw [hsum]
      _ = 2 ^ (s + 1) * 2 ^ (L - 1 - s) := pow_add 2 _ _
      _ = 2 * 2 ^ s * 2 ^ (L - 1 - s) := by rw [pow_succ]; ring
  refine ⟨i / (2 * 2 ^ s), i % (2 * 2 ^ s), 2 ^ (L - 1 - s), rfl, rfl, rfl,
    Nat.mod_lt _ h2lenpos, (Nat.mod_add_div i (2 * 2 ^ s)).symm, ?_, ?_, ?_⟩
  · rw [Nat.div_lt_iff_lt_mul h2lenpos]
    calc i < 2 ^ L := hi
      _ = 2 ^ (L - 1 - s) * (2 * 2 ^ s) := by rw [hD]; ring
  · rw [hD, Nat.mul_div_cancel_left _ h2lenpos]
  · rw [hD, show 2 * 2 ^ s * 2 ^ (L - 1 - s) = 2 ^ s * (2 * 2 ^ (L - 1 - s)) by ring,
      Nat.mul_div_cancel_left _ hlenpos]

/-- An index whose butterfly bit is clear has its partner i + len inside the
array. -/
theorem even_pos_succ_lt (L s : ℕ) (hs : s < L) (i : ℕ) (hi : i < 2 ^ L)
    (he : i / 2 ^ s % 2 = 0) : i + 2 ^ s < 2 ^ L := by
  obtain ⟨b, r, h, hhdef, hbdef, hrdef, hrlt, hieq, hblt, hdiv2, hdiv1⟩ :=
    pair_decomp L s hs i hi
  have hlenpos : 0 < 2 ^ s := pow_pos (by norm_num) s
  have hidiv : i / 2 ^ s = r / 2 ^ s + 2 * b := by
    conv_lhs => rw [hieq]
    rw [show r + 2 * 2 ^ s * b = r + 2 ^ s * (2 * b) by ring,
      Nat.add_mul_div_left _ _ hlenpos]
  have hrdiv : r / 2 ^ s < 2 := by
    rw [Nat.div_lt_iff_lt_mul hlenpos]
    omega
  have hupar : r / 2 ^ s % 2 = 0 := by
    rw [hidiv, Nat.add_mul_mod_self_left] at he
    exact he
  have hr0 : r / 2 ^ s = 0 := by
    generalize r / 2 ^ s = u at hrdiv hupar
    omega
  have hrlen : r < 2 ^ s := by
    by_contra hcon
    have h1 : 1 ≤ r / 2 ^ s := (Nat.one_le_div_iff hlenpos).mpr (by omega)
    rw [hr0] at h1
    omega
  have hstep : 2 * 2 ^ s * (b + 1) = 2 * 2 ^ s * b + 2 * 2 ^ s := by ring
  have hble : 2 * 2 ^ s * (b + 1) ≤ 2 * 2 ^ s * h :=
    Nat.mul_le_mul_left _ (by omega)
  have hDeq : 2 * 2 ^ s * h = 2 ^ L := by
    rw [hhdef]
    have hsum : s + 1 + (L - 1 - s) = L := by omega
    calc 2 * 2 ^ s * 2 ^ (L - 1 - s) = 2 ^ (s + 1) * 2 ^ (L - 1 - s) := by
          rw [pow_succ]; ring
      _ = 2 ^ (s + 1 + (L - 1 - s)) := (pow_add 2 _ _).symm
      _ = 2 ^ L := by rw [hsum]
  omega

/-- The inverse layer undoes the forward layer of the same width: on every
in-range index the composition doubles the input, provided the twiddles of
matching blocks multiply to -1. -/
theorem stageZ_inversion (n : ℕ) (w : ℕ → ZMod n) (L s : ℕ) (hs : s < L)
    (hw : ∀ b, b < 2 ^ (L - 1 - s) →
      w (2 ^ (L - 1 - s) + b) * w (2 ^ (L - s) - 1 - b) = -1)
    (a : ℕ → ZMod n) (i : ℕ) (hi : i < 2 ^ L) :
    invStageZ n w (2 ^ L) (2 ^ s) (fwdStageZ n w (2 ^ L) (2 ^ s) a) i =
      2 * a i := by
  obtain ⟨b, r, h, hhdef, hbdef, hrdef, hrlt, hieq, hblt, hdiv2, hdiv1⟩ :=
    pair_decomp L s hs i hi
  have hlenpos : 0 < 2 ^ s := pow_pos (by norm_num) s
  have h2h : 2 ^ (L - s) = 2 * h := by
    rw [hhdef]
    have hsum : L - s = (L - 1 - s) + 1 := by omega
    rw [hsum, pow_succ]
    ring
  have hwb : w (h + b) * w (2 * h - 1 - b) = -1 := by
    have hx := hw b (by omega)
    rw [h2h, ← hhdef] at hx
    exact hx
  rcases Nat.lt_or_ge r (2 ^ s) with hcase | hcase
  · -- i is the lower position of its pair
    have hidiv : i / 2 ^ s % 2 = 0 := by
      have hq : i / 2 ^ s = 2 * b := by
        conv_lhs => rw [hieq]
        rw [show r + 2 * 2 ^ s * b = r + 2 ^ s * (2 * b) by ring,
          Nat.add_mul_div_left _ _ hlenpos, Nat.div_eq_of_lt hcase, Nat.zero_add]
      rw [hq]
      exact Nat.mul_mod_right 2 b
    have hplus_div : ¬ ((i + 2 ^ s) / 2 ^ s % 2 = 0) := by
      have hq : (i + 2 ^ s) / 2 ^ s = r / 2 ^ s + 1 + 2 * b := by
        conv_lhs => rw [hieq]
        rw [show r + 2 * 2 ^ s * b + 2 ^ s = (r + 2 ^ s) + 2 ^ s * (2 * b) by ring,
          Nat.add_mul_div_left _ _ hlenpos, Nat.add_div_right _ hlenpos]
      rw [hq, Nat.div_eq_of_lt hcase]
      omega
    have hplusblock : (i + 2 ^ s) / (2 * 2 ^ s) = b := by
      conv_lhs => rw [hieq]
      rw [show r + 2 * 2 ^ s * b + 2 ^ s = (r + 2 ^ s) + (2 * 2 ^ s) * b by ring,
        Nat.add_mul_div_left _ _ (by omega), Nat.div_eq_of_lt (by omega),
        Nat.zero_add]
    have hplussub : i + 2 ^ s - 2 ^ s = i := by omega
    have hFi : fwdStageZ n w (2 ^ L) (2 ^ s) a i =
        a i + w (h + b) * a (i + 2 ^ s) := by
      unfold fwdStageZ
      rw [if_pos hidiv, hdiv2, hbdef]
    have hFip : fwdStageZ n w (2 ^ L) (2 ^ s) a (i + 2 ^ s) =
        a i - w (h + b) * a (i + 2 ^ s) := by
      unfold fwdStageZ
      rw [if_neg hplus_div, hdiv2, hplusblock, hplussub]
    have hInv : invStageZ n w (2 ^ L) (2 ^ s)
        (fwdStageZ n w (2 ^ L) (2 ^ s) a) i =
        fwdStageZ n w (2 ^ L) (2 ^ s) a i +
          fwdStageZ n w (2 ^ L) (2 ^ s) a (i + 2 ^ s) := by
      unfold invStageZ
      rw [if_pos hidiv]
    rw [hInv, hFi, hFip]
    ring
  · -- i is the upper position of its pair
    have hr2 : r - 2 ^ s < 2 ^ s := by omega
    have hjeq : i - 2 ^ s = (r - 2 ^ s) + 2 * 2 ^ s * b := by omega
    have hidiv : ¬ (i / 2 ^ s % 2 = 0) := by
      have hlink : 2 ^ s * (2 * b) = 2 * 2 ^ s * b := by ring
      have hq : i / 2 ^ s = 1 + 2 * b := by
        conv_lhs => rw [hieq]
        rw [show r + 2 * 2 ^ s * b = ((r - 2 ^ s) + 2 ^ s) + 2 ^ s * (2 * b) by
            omega,
          Nat.add_mul_div_left _ _ hlenpos, Nat.add_div_right _ hlenpos,
          Nat.div_eq_of_lt hr2]
      rw [hq]
      omega
    have hjdiv : (i - 2 ^ s) / 2 ^ s % 2 = 0 := by
      have hq : (i - 2 ^ s) / 2 ^ s = 2 * b := by
        conv_lhs => rw [hjeq]
        rw [show (r - 2 ^ s) + 2 * 2 ^ s * b = (r - 2 ^ s) + 2 ^ s * (2 * b) by
            ring,
          Nat.add_mul_div_left _ _ hlenpos, Nat.div_eq_of_lt hr2, Nat.zero_add]
      rw [hq]
      exact Nat.mul_mod_right 2 b
    have hjblock : (i - 2 ^ s) / (2 * 2 ^ s) = b := by
      conv_lhs => rw [hjeq]
      rw [show (r - 2 ^ s) + 2 * 2 ^ s * b = (r - 2 ^ s) + (2 * 2 ^ s) * b by
          ring,
        Nat.add_mul_div_left _ _ (by omega), Nat.div_eq_of_lt (by omega),
        Nat.zero_add]
    have hjplus : i - 2 ^ s + 2 ^ s = i := by omega
    have hFj : fwdStageZ n w (2 ^ L) (2 ^ s) a (i - 2 ^ s) =
        a (i - 2 ^ s) + w (h + b) * a i := by
      unfold fwdStageZ
      rw [if_pos hjdiv, hdiv2, hjblock, hjplus]
    have hFi : fwdStageZ n w (2 ^ L) (2 ^ s) a i =
        a (i - 2 ^ s) - w (h + b) * a i := by
      unfold fwdStageZ
      rw [if_neg hidiv, hdiv2, hbdef]
    have hInv : invStageZ n w (2 ^ L) (2 ^ s)
        (fwdStageZ n w (2 ^ L) (2 ^ s) a) i =
        -w (2 * h - 1 - b) *
          (fwdStageZ n w (2 ^ L) (2 ^ s) a (i - 2 ^ s) -
            fwdStageZ n w (2 ^ L) (2 ^ s) a i) := by
      unfold invStageZ
      rw [if_neg hidiv, hdiv1, hbdef]
    rw [hInv, hFj, hFi]
    have hexp : -w (2 * h - 1 - b) *
        ((a (i - 2 ^ s) + w (h + b) * a i) - (a (i - 2 ^ s) - w (h + b) * a i)) =
        -(w (h + b) * w (2 * h - 1 - b)) * (2 * a i) := by ring
    rw [hexp, hwb]
    ring

/-- The inverse layer reads only in-range positions at in-range indices. -/
theorem invStageZ_congr (n : ℕ) (w : ℕ → ZMod n) (L s : ℕ) (hs : s < L)
    (f g : ℕ → ZMod n) (hfg : ∀ j, j < 2 ^ L → f j = g j) (i : ℕ)
    (hi : i < 2 ^ L) :
    invStageZ n w (2 ^ L) (2 ^ s) f i = invStageZ n w (2 ^ L) (2 ^ s) g i := by
  unfold invStageZ
  by_cases hc : i / 2 ^ s % 2 = 0
  · rw [if_pos hc, if_pos hc, hfg i hi,
      hfg (i + 2 ^ s) (even_pos_succ_lt L s hs i hi hc)]
  · rw [if_neg hc, if_neg hc,
      hfg (i - 2 ^ s) (Nat.lt_of_le_of_lt (Nat.sub_le i (2 ^ s)) hi), hfg i hi]

/-- The inverse layer commutes with scalar multiplication. -/
theorem invStageZ_smul (n : ℕ) (w : ℕ → ZMod n) (D len : ℕ) (c : ZMod n)
    (a : ℕ → ZMod n) (i : ℕ) :
    invStageZ n w D len (fun j => c * a j) i = c * invStageZ n w D len a i := by
  unfold invStageZ
  split_ifs <;> ring

/-- Composing the first s inverse layers after the last s forward layers
multiplies every in-range coefficient by 2^s. -/
theorem stagesZ_inversion (n : ℕ) (w : ℕ → ZMod n) (L : ℕ)
    (hw : ∀ s, s < L → ∀ b, b < 2 ^ (L - 1 - s) →
      w (2 ^ (L - 1 - s) + b) * w (2 ^ (L - s) - 1 - b) = -1) :
    ∀ s, s ≤ L → ∀ (a : ℕ → ZMod n) (i : ℕ), i < 2 ^ L →
      invStagesZ n w (2 ^ L) s (nttStagesZ n w (2 ^ L) s a) i =
        (2 ^ s : ZMod n) * a i := by
  intro s
  induction s with
  | zero =>
    intro _ a i _
    show a i = (2 ^ 0 : ZMod n) * a i
    rw [pow_zero, one_mul]
  | succ s ih =>
    intro hsL a i hi
    have hs : s < L := by omega
    show invStageZ n w (2 ^ L) (2 ^ s)
        (invStagesZ n w (2 ^ L) s
          (nttStagesZ n w (2 ^ L) s (fwdStageZ n w (2 ^ L) (2 ^ s) a))) i = _
    have hstep1 : invStageZ n w (2 ^ L) (2 ^ s)
        (invStagesZ n w (2 ^ L) s
          (nttStagesZ n w (2 ^ L) s (fwdStageZ n w (2 ^ L) (2 ^ s) a))) i =
        invStageZ n w (2 ^ L) (2 ^ s)
          (fun j => (2 ^ s : ZMod n) * fwdStageZ n w (2 ^ L) (2 ^ s) a j) i := by
      refine invStageZ_congr n w L s hs _ _ (fun j hj => ?_) i hi
      exact ih (by omega) (fwdStageZ n w (2 ^ L) (2 ^ s) a) j hj
    rw [hstep1, invStageZ_smul,
      stageZ_inversion n w L s hs (hw s hs) a i hi, pow_succ]
    ring

/-- Reversing L bits of zero gives zero. -/
theorem brv_zero (L : ℕ) : brv L 0 = 0 := by
  induction L with
  | zero => rfl
  | succ L ih => simp [brv, ih]

/-- Reversing L bits of one gives the top bit. -/
theorem brv_one (L : ℕ) (hL : 0 < L) : brv L 1 = 2 ^ (L - 1) := by
  obtain ⟨L1, rfl⟩ : ∃ L1, L = L1 + 1 := ⟨L - 1, by omega⟩
  show 1 % 2 * 2 ^ L1 + brv L1 (1 / 2) = 2 ^ (L1 + 1 - 1)
  norm_num [brv_zero]

/-- Bit-reversal pairing: inside the block [2^g, 2^(g+1)) of an L-bit table,
the entries at u and at its complement sum to 2^L. -/
theorem brv_pair (g : ℕ) : ∀ L u : ℕ, g < L → u < 2 ^ g →
    brv L (2 ^ g + u) + brv L (2 ^ g + (2 ^ g - 1 - u)) = 2 ^ L := by
  induction g with
  | zero =>
    intro L u hgL hu
    have hu0 : u = 0 := by omega
    subst hu0
    norm_num [brv_one L (by omega)]
    have : 2 ^ (L - 1) + 2 ^ (L - 1) = 2 ^ L := by
      have hL : L = (L - 1) + 1 := by omega
      conv_rhs => rw [hL]
      rw [pow_succ]
      ring
    omega
  | succ g ih =>
    intro L u hgL hu
    obtain ⟨L1, rfl⟩ : ∃ L1, L = L1 + 1 := ⟨L - 1, by omega⟩
    have hA : 0 < 2 ^ g := pow_pos (by norm_num) g
    have hpow : 2 ^ (g + 1) = 2 * 2 ^ g := by rw [pow_succ]; ring
    -- first summand
    have h1mod : (2 ^ (g + 1) + u) % 2 = u % 2 := by omega
    have h1div : (2 ^ (g + 1) + u) / 2 = 2 ^ g + u / 2 := by omega
    -- second summand
    have h2mod : (2 ^ (g + 1) + (2 ^ (g + 1) - 1 - u)) % 2 = 1 - u % 2 := by
      omega
    have h2div : (2 ^ (g + 1) + (2 ^ (g + 1) - 1 - u)) / 2 =
        2 ^ g + (2 ^ g - 1 - u / 2) := by omega
    show (2 ^ (g + 1) + u) % 2 * 2 ^ L1 + brv L1 ((2 ^ (g + 1) + u) / 2) +
        ((2 ^ (g + 1) + (2 ^ (g + 1) - 1 - u)) % 2 * 2 ^ L1 +
          brv L1 ((2 ^ (g + 1) + (2 ^ (g + 1) - 1 - u)) / 2)) = 2 ^ (L1 + 1)
    rw [h1mod, h1div, h2mod, h2div]
    have hrec := ih L1 (u / 2) (by omega) (by omega)
    have hpowL : 2 ^ (L1 + 1) = 2 ^ L1 + 2 ^ L1 := by rw [pow_succ]; ring
    have h01 : u % 2 = 0 ∨ u % 2 = 1 := by omega
    rcases h01 with h01 | h01 <;> rw [h01] <;> norm_num <;> omega

/-- Generic round trip of the ntt.cpp kernel: composing the forward NTT and
invntt_tomont multiplies every coefficient by the Montgomery constant R
modulo n, for any twiddle table whose effective (rho-scaled) entries are the
bit-reversed powers of a primitive 2*2^L-th root of unity. -/
theorem ntt_invntt_gen (n : ℕ) (QV : ℤ) (R : ℕ) (ρ ψ : ZMod n)
    (zetas : ℕ → ℤ) (f : ℤ) (L : ℕ)
    (hQ : (R : ℤ) ∣ QV * (n : ℤ) - 1) (hRpos : 0 < R)
    (hρ : ((R : ℕ) : ZMod n) * ρ = 1)
    (hzetas : ∀ m, ρ * ((zetas m : ℤ) : ZMod n) = ψ ^ brv L m)
    (hψ : ψ ^ 2 ^ L = -1)
    (hf : ρ * ((f : ℤ) : ZMod n) * (2 : ZMod n) ^ L = ((R : ℕ) : ZMod n))
    (a : ℕ → ℤ) (i : ℕ) (hi : i < 2 ^ L) :
    ((invntt_tomont (n : ℤ) QV R zetas f L
        (ntt (n : ℤ) QV R zetas L a) i : ℤ) : ZMod n) =
      ((R : ℕ) : ZMod n) * ((a i : ℤ) : ZMod n) := by
  unfold invntt_tomont ntt
  rw [mreduce_cast n QV R ρ hQ hRpos hρ]
  push_cast
  rw [invStages_cast n QV R ρ hQ hRpos hρ zetas (2 ^ L) L
    (nttStages (n : ℤ) QV R zetas (2 ^ L) L a) i]
  have hfun : (fun j => ((nttStages (n : ℤ) QV R zetas (2 ^ L) L a j : ℤ) : ZMod n)) =
      nttStagesZ n (fun m => ρ * ((zetas m : ℤ) : ZMod n)) (2 ^ L) L
        (fun j => ((a j : ℤ) : ZMod n)) := by
    funext j
    exact nttStages_cast n QV R ρ hQ hRpos hρ zetas (2 ^ L) L a j
  rw [hfun]
  have heffw : (fun m => ρ * ((zetas m : ℤ) : ZMod n)) =
      fun m => ψ ^ brv L m := funext hzetas
  rw [heffw]
  have hwpair : ∀ s, s < L → ∀ b, b < 2 ^ (L - 1 - s) →
      ψ ^ brv L (2 ^ (L - 1 - s) + b) * ψ ^ brv L (2 ^ (L - s) - 1 - b) = -1 := by
    intro s hs b hb
    have hp : 2 ^ (L - s) = 2 * 2 ^ (L - 1 - s) := by
      have hsum : L - s = (L - 1 - s) + 1 := by omega
      rw [hsum, pow_succ]
      ring
    have hidx : 2 ^ (L - s) - 1 - b =
        2 ^ (L - 1 - s) + (2 ^ (L - 1 - s) - 1 - b) := by omega
    rw [hidx, ← pow_add, brv_pair (L - 1 - s) L b (by omega) hb, hψ]
  rw [stagesZ_inversion n (fun m => ψ ^ brv L m) L hwpair L (le_refl L)
    (fun j => ((a j : ℤ) : ZMod n)) i hi]
  calc ρ * (((f : ℤ) : ZMod n) * ((2 ^ L : ZMod n) * ((a i : ℤ) : ZMod n)))
      = (ρ * ((f : ℤ) : ZMod n) * (2 : ZMod n) ^ L) * ((a i : ℤ) : ZMod n) := by
        ring
    _ = ((R : ℕ) : ZMod n) * ((a i : ℤ) : ZMod n) := by rw [hf]

/-- The modelled twiddle table is effective: scaling an entry by the inverse
Montgomery constant leaves the bit-reversed root power. -/
theorem zetasModel_effective (n : ℕ) (R : ℕ) (ψi : ℤ) (ρ : ZMod n) (L : ℕ)
    (hρ : ((R : ℕ) : ZMod n) * ρ = 1) (m : ℕ) :
    ρ * ((zetasModel (n : ℤ) ((R : ℕ) : ℤ) ψi L m : ℤ) : ZMod n) =
      ((ψi : ℤ) : ZMod n) ^ brv L m := by
  unfold zetasModel
  rw [ZMod.intCast_mod]
  push_cast
  calc ρ * (((R : ℕ) : ZMod n) * ((ψi : ℤ) : ZMod n) ^ brv L m)
      = (((R : ℕ) : ZMod n) * ρ) * ((ψi : ℤ) : ZMod n) ^ brv L m := by ring
    _ = ((ψi : ℤ) : ZMod n) ^ brv L m := by rw [hρ, one_mul]

/-- C2 (amended): composing the forward NTT with invntt_tomont does not
return the input: it returns the input scaled by the Montgomery constant R
(2^32 for the 32-bit kernel, 2^64 for the 64-bit one), coefficient-wise
modulo q, as the name tomont records: invntt_tomont(ntt(a)) is congruent to
a * R mod q.  The hypotheses delimit the supported parameter sets: QV
inverse to q mod R, a primitive 2*2^L-th root psi, and the final scaling
constant f equal to R^2 / 2^L mod q. -/
theorem c2_ntt_roundtrip_tomont (n : ℕ) (QV : ℤ) (R : ℕ) (ρ : ZMod n)
    (ψi : ℤ) (f : ℤ) (L : ℕ)
    (hQ : (R : ℤ) ∣ QV * (n : ℤ) - 1) (hRpos : 0 < R)
    (hρ : ((R : ℕ) : ZMod n) * ρ = 1)
    (hψ : ((ψi : ℤ) : ZMod n) ^ 2 ^ L = -1)
    (hf : ρ * ((f : ℤ) : ZMod n) * (2 : ZMod n) ^ L = ((R : ℕ) : ZMod n))
    (a : ℕ → ℤ) (i : ℕ) (hi : i < 2 ^ L) :
    ((invntt_tomont (n : ℤ) QV R (zetasModel (n : ℤ) ((R : ℕ) : ℤ) ψi L) f L
        (ntt (n : ℤ) QV R (zetasModel (n : ℤ) ((R : ℕ) : ℤ) ψi L) L a) i : ℤ) :
      ZMod n) = ((R : ℕ) : ZMod n) * ((a i : ℤ) : ZMod n) :=
  ntt_invntt_gen n QV R ρ ((ψi : ℤ) : ZMod n) _ f L hQ hRpos hρ
    (zetasModel_effective n R ψi ρ L hρ) hψ hf a i hi

/-- C2 witness: a full instance with n = 5, L = 1 (two-point NTT), R = 2^32,
psi = 2, f = 3, on the constant polynomial 1. -/
theorem c2_witness :
    ((2 ^ 32 : ℕ) : ℤ) ∣ (3435973837 : ℤ) * ((5 : ℕ) : ℤ) - 1 ∧
    0 < 2 ^ 32 ∧
    ((2 ^ 32 : ℕ) : ZMod 5) * (1 : ZMod 5) = 1 ∧
    (((2 : ℤ) : ZMod 5)) ^ 2 ^ 1 = -1 ∧
    (1 : ZMod 5) * (((3 : ℤ)) : ZMod 5) * (2 : ZMod 5) ^ 1 =
      ((2 ^ 32 : ℕ) : ZMod 5) ∧
    ((invntt_tomont ((5 : ℕ) : ℤ) 3435973837 (2 ^ 32)
        (zetasModel ((5 : ℕ) : ℤ) ((2 ^ 32 : ℕ) : ℤ) 2 1) 3 1
        (ntt ((5 : ℕ) : ℤ) 3435973837 (2 ^ 32)
          (zetasModel ((5 : ℕ) : ℤ) ((2 ^ 32 : ℕ) : ℤ) 2 1) 1
          (fun _ => 1)) 0 : ℤ) : ZMod 5) =
      ((2 ^ 32 : ℕ) : ZMod 5) * (((fun _ => (1 : ℤ)) 0 : ℤ) : ZMod 5) :=
  ⟨⟨4, by norm_num⟩, by norm_num, by decide, by decide, by decide,
    c2_ntt_roundtrip_tomont 5 3435973837 (2 ^ 32) 1 2 3 1 ⟨4, by norm_num⟩
      (by norm_num) (by decide) (by decide) (by decide) (fun _ => 1) 0
      (by norm_num)⟩

/-- C2 counterexample: at the 32-bit kernel parameters (q = mod = 8380417,
R = 2^32, dim = 2^11) the round trip on the unit impulse does not return the
input: invntt_tomont(ntt(delta0)) is congruent to 2^32 * delta0, and
2^32 is not 1 modulo q, so the claimed identity round trip fails. -/
theorem c2_counterexample :
    ¬ (((invntt_tomont ((mod : ℕ) : ℤ) ((QINV : ℕ) : ℤ) (2 ^ 32)
        (zetasModel ((mod : ℕ) : ℤ) ((2 ^ 32 : ℕ) : ℤ) psi32 11) 6290560 11
        (ntt ((mod : ℕ) : ℤ) ((QINV : ℕ) : ℤ) (2 ^ 32)
          (zetasModel ((mod : ℕ) : ℤ) ((2 ^ 32 : ℕ) : ℤ) psi32 11) 11
          delta0) 0 : ℤ) : ZMod mod) = ((delta0 0 : ℤ) : ZMod mod)) := by
  intro hcon
  have hpsi : ((psi32 : ℤ) : ZMod mod) ^ 2 ^ 11 = -1 := by
    have h2 : (1856698 : ℤ) ^ 2048 % ((mod : ℕ) : ℤ) = 8380416 := by
      norm_num [mod]
    calc ((psi32 : ℤ) : ZMod mod) ^ 2 ^ 11
        = (((1856698 : ℤ) ^ 2048 : ℤ) : ZMod mod) := by
          show (((1856698 : ℤ)) : ZMod mod) ^ 2 ^ 11 = _
          rw [show (2 : ℕ) ^ 11 = 2048 by norm_num, Int.cast_pow]
      _ = ((((1856698 : ℤ) ^ 2048 % ((mod : ℕ) : ℤ)) : ℤ) : ZMod mod) :=
          (ZMod.intCast_mod _ mod).symm
      _ = ((8380416 : ℤ) : ZMod mod) := by rw [h2]
      _ = -1 := by decide
  have hrt := ntt_invntt_gen mod ((QINV : ℕ) : ℤ) (2 ^ 32) (8265825 : ZMod mod)
    ((psi32 : ℤ) : ZMod mod)
    (zetasModel ((mod : ℕ) : ℤ) ((2 ^ 32 : ℕ) : ℤ) psi32 11) 6290560 11
    ⟨114592, by norm_num [QINV, mod]⟩ (by norm_num)
    (by decide)
    (zetasModel_effective mod (2 ^ 32) psi32 (8265825 : ZMod mod) 11 (by decide))
    hpsi (by decide) delta0 0 (by norm_num)
  rw [hrt] at hcon
  have hval : ((delta0 0 : ℤ) : ZMod mod) = 1 := by decide
  rw [hval, mul_one] at hcon
  exact absurd hcon (by decide)

end kspir
